import Mathlib

/- Formal model of the HelloWork job-market scripts (scraping.py and
traitement.py).  Pure text-processing functions are embedded over
`List Char` and `ℚ` (Python floats are modelled by exact rationals;
`round(x, 2)` is modelled by round-half-to-even on hundredths, which is
the float behaviour on the values of this domain).  The harvesting loop
of scraping.py is embedded as a fuelled state-transition function over an
environment describing what the external pages contain. -/

/-! ## Character-level utilities shared by the embedded functions -/

/-- Lowercasing as Python `str.lower` acts on the characters of this
domain: ASCII letters, the Latin-1 letters (`À`–`Þ` except `×`), plus
`Œ` and `Ÿ`.  Every other character is left unchanged. -/
def minusculeFr (c : Char) : Char :=
  if 65 ≤ c.toNat ∧ c.toNat ≤ 90 then Char.ofNat (c.toNat + 32)
  else if 192 ≤ c.toNat ∧ c.toNat ≤ 222 ∧ c.toNat ≠ 215 then Char.ofNat (c.toNat + 32)
  else if c.toNat = 376 then Char.ofNat 255
  else if c.toNat = 338 then Char.ofNat 339
  else c

/-- Uppercasing of one character, as Python `str.capitalize` applies to
the first character (on Latin letters title-casing coincides with
uppercasing). -/
def majusculeFr (c : Char) : Char :=
  if 97 ≤ c.toNat ∧ c.toNat ≤ 122 then Char.ofNat (c.toNat - 32)
  else if 224 ≤ c.toNat ∧ c.toNat ≤ 254 ∧ c.toNat ≠ 247 then Char.ofNat (c.toNat - 32)
  else if c.toNat = 255 then Char.ofNat 376
  else if c.toNat = 339 then Char.ofNat 338
  else c

/-- Python's whitespace class (`\s` of `re`, and the default set
stripped by `str.strip`). -/
def estEspacePy (c : Char) : Bool :=
  decide ((9 ≤ c.toNat ∧ c.toNat ≤ 13) ∨ c.toNat = 32 ∨ c.toNat = 133 ∨
    c.toNat = 160 ∨ c.toNat = 5760 ∨ (8192 ≤ c.toNat ∧ c.toNat ≤ 8202) ∨
    c.toNat = 8232 ∨ c.toNat = 8233 ∨ c.toNat = 8239 ∨ c.toNat = 8287 ∨
    c.toNat = 12288)

/-- Decimal digit, `\d` on the ASCII range. -/
def estChiffre (c : Char) : Bool :=
  decide (48 ≤ c.toNat ∧ c.toNat ≤ 57)

/-- Word character (`\w` of Python `re` on the letters of this domain):
ASCII letters and digits, underscore, Latin-1 letters, `Œ`, `œ`, `Ÿ`. -/
def estMot (c : Char) : Bool :=
  decide ((48 ≤ c.toNat ∧ c.toNat ≤ 57) ∨ (65 ≤ c.toNat ∧ c.toNat ≤ 90) ∨
    (97 ≤ c.toNat ∧ c.toNat ≤ 122) ∨ c.toNat = 95 ∨
    (192 ≤ c.toNat ∧ c.toNat ≤ 255 ∧ c.toNat ≠ 215 ∧ c.toNat ≠ 247) ∨
    c.toNat = 338 ∨ c.toNat = 339 ∨ c.toNat = 376)

/-- Substring test, Python's `pattern in text` on strings. -/
def estInfixe : List Char → List Char → Bool
  | p, [] => p.isEmpty
  | p, c :: cs => p.isPrefixOf (c :: cs) || estInfixe p cs

/-! ## Salary normalizer (`nettoyer_salaire`, traitement.py lines 22–67) -/

/-- The digit scanner of `re.findall(r'(\d+(?:\.\d+)?)', clean_txt)`:
value of a digit run, most significant digit first. -/
def valChiffres (l : List Char) : Nat :=
  l.foldl (fun a c => 10 * a + (c.toNat - 48)) 0

/-- All numeric tokens (integer or decimal) of the text, left to right,
each a maximal digit run optionally followed by `.` and a second maximal
digit run — exactly the matches of `\d+(?:\.\d+)?`.  Fuelled; the fuel
is one more than the length of the scanned list. -/
def scanNombres : Nat → List Char → List ℚ
  | 0, _ => []
  | _ + 1, [] => []
  | carb + 1, c :: cs =>
    if estChiffre c then
      let ent := (c :: cs).takeWhile estChiffre
      let reste := (c :: cs).dropWhile estChiffre
      match reste with
      | '.' :: d :: ds =>
        if estChiffre d then
          let frac := (d :: ds).takeWhile estChiffre
          let reste2 := (d :: ds).dropWhile estChiffre
          ((valChiffres ent : ℚ) + (valChiffres frac : ℚ) / 10 ^ frac.length)
            :: scanNombres carb reste2
        else (valChiffres ent : ℚ) :: scanNombres carb reste
      | _ => (valChiffres ent : ℚ) :: scanNombres carb reste
    else scanNombres carb cs

/-- Round half to even (the rounding of Python `round`). -/
def arrondirDemiPair (q : ℚ) : ℤ :=
  if Int.fract q < 1 / 2 then ⌊q⌋
  else if 1 / 2 < Int.fract q then ⌊q⌋ + 1
  else if ⌊q⌋ % 2 = 0 then ⌊q⌋ else ⌊q⌋ + 1

/-- Rounding to two decimal places, `round(x, 2)`. -/
def arrondir2 (q : ℚ) : ℚ :=
  (arrondirDemiPair (100 * q) : ℚ) / 100

/-- The marker of a masked salary, `"non affiché"`. -/
def nonAffiche : List Char :=
  "non affiché".toList

/-- Step 2 of `nettoyer_salaire` applied after lowercasing: drop the
plain, narrow no-break and no-break spaces, then expand `k` to `000`. -/
def normaliserTexteSalaire (bas : List Char) : List Char :=
  (bas.filter
      (fun c => !(c.toNat = 32 || c.toNat = 8239 || c.toNat = 160))).flatMap
    (fun c => if c.toNat = 107 then ['0', '0', '0'] else [c])

/-- Steps 3–4: extract every numeric token; absent if there is none,
otherwise the arithmetic mean of the tokens. -/
def valeurExtraite (propre : List Char) : Option ℚ :=
  let nombres := scanNombres (propre.length + 1) propre
  if nombres = [] then none
  else some (nombres.sum / (nombres.length : ℚ))

/-- Step 5: the annualization multiplier, keyword checks in the order of
the source, then the `[1200, 12000]` monthly-inference band. -/
def multiplicateurDe (propre : List Char) (valeur : ℚ) : ℚ :=
  if estInfixe ("mois".toList) propre then 12
  else if estInfixe ("heure".toList) propre then (15167 / 100) * 12
  else if estInfixe ("jour".toList) propre then 218
  else if 1200 ≤ valeur ∧ valeur ≤ 12000 then 12
  else 1

/-- Step 7: outlier filter, then rounding to 2 decimal places. -/
def filtrerAberrants (salaireAnnuel : ℚ) : Option ℚ :=
  if salaireAnnuel < 14000 ∨ salaireAnnuel > 200000 then none
  else some (arrondir2 salaireAnnuel)

/-- The salary normalizer `nettoyer_salaire` (traitement.py lines 22–67).  The embedding takes
a `String`, so the non-string branch of the source (`None` input) is
outside its domain. -/
def nettoyer_salaire (texte : String) : Option ℚ :=
  let bas := texte.toList.map minusculeFr
  if estInfixe nonAffiche bas then none
  else
    let propre := normaliserTexteSalaire bas
    match valeurExtraite propre with
    | none => none
    | some valeur => filtrerAberrants (valeur * multiplicateurDe propre valeur)

/-! ## Title canonicalizer (`simplifier_titre`, traitement.py lines 70–94)

Each `re.sub` of the source is embedded as a left-to-right single-pass
substitution: at each position the pattern-specific matcher either
consumes a match (returning the last consumed original character — used
by the word-boundary assertions — and the remainder) or the scan
advances one character.  Every pattern of the source consumes at least
one character and matches deterministically at a given position, so this
models Python's leftmost non-overlapping semantics. -/

/-- The generic fuelled substitution engine, fuel one more than the
length of the scanned text. -/
def reSub (essai : Option Char → List Char → Option (Char × List Char))
    (rempl : List Char) : Nat → Option Char → List Char → List Char
  | 0, _, l => l
  | _ + 1, _, [] => []
  | carb + 1, prec, c :: cs =>
    match essai prec (c :: cs) with
    | some (dern, reste) => rempl ++ reSub essai rempl carb (some dern) reste
    | none => c :: reSub essai rempl carb (some c) cs

def appliquerSub (essai : Option Char → List Char → Option (Char × List Char))
    (rempl : List Char) (l : List Char) : List Char :=
  reSub essai rempl (l.length + 1) none l

/-- Case-insensitive literal match; returns the last consumed original
character and the remainder. -/
def prendreCiDern : List Char → List Char → Option (Char × List Char)
  | [], _ => none
  | [p], c :: cs => if minusculeFr c = minusculeFr p then some (c, cs) else none
  | p :: p2 :: ps, c :: cs =>
    if minusculeFr c = minusculeFr p then prendreCiDern (p2 :: ps) cs else none
  | _ :: _, [] => none

/-- The hour-count pattern of the source. -/
def essaiHeures (_ : Option Char) (l : List Char) : Option (Char × List Char) :=
  let ent := l.takeWhile estChiffre
  if ent.isEmpty then none
  else
    let r1 := l.dropWhile estChiffre
    let r2 :=
      match r1 with
      | c :: t =>
        if (c = '.' ∨ c = ',') ∧ ¬(t.takeWhile estChiffre).isEmpty then
          t.dropWhile estChiffre
        else r1
      | [] => r1
    match r2 with
    | c :: t =>
      if c = 'h' ∨ c = 'H' then some (c, t)
      else
        if estEspacePy c then
          match t with
          | d :: t2 => if d = 'h' ∨ d = 'H' then some (d, t2) else none
          | [] => none
        else none
    | [] => none

/-- Two case-insensitive literals separated by an optional whitespace
character (the full-time and part-time phrases). -/
def essaiDeuxMots (m1 m2 : List Char) (_ : Option Char) (l : List Char) :
    Option (Char × List Char) :=
  match prendreCiDern m1 l with
  | none => none
  | some (_, r1) =>
    match r1 with
    | c :: t => if estEspacePy c then prendreCiDern m2 t else prendreCiDern m2 r1
    | [] => none

/-- A case-insensitive literal token between two word boundaries; the
tokens of the source begin and end with word characters, so the
boundaries amount to: the preceding character (if any) and the following
character (if any) are not word characters. -/
def essaiMotEntier (mot : List Char) (prec : Option Char) (l : List Char) :
    Option (Char × List Char) :=
  let frontAvant := match prec with | none => true | some p => !estMot p
  if frontAvant then
    match prendreCiDern mot l with
    | some (dern, reste) =>
      match reste with
      | [] => some (dern, [])
      | c :: _ => if estMot c then none else some (dern, reste)
    | none => none
  else none

/-- Lazy scan to the first closing parenthesis, `.` not crossing a
newline. -/
def chercherFermante : List Char → Option (Char × List Char)
  | [] => none
  | ')' :: t => some (')', t)
  | '\n' :: _ => none
  | _ :: t => chercherFermante t

/-- Any parenthesized span (lazy). -/
def essaiQuoteParentheses (_ : Option Char) : List Char → Option (Char × List Char)
  | '(' :: cs => chercherFermante cs
  | _ => none

/-- An isolated dash between whitespace characters. -/
def essaiTiretIsole (_ : Option Char) : List Char → Option (Char × List Char)
  | c1 :: '-' :: c2 :: r =>
    if estEspacePy c1 && estEspacePy c2 then some (c2, r) else none
  | _ => none

/-- A pipe character. -/
def essaiBarre (_ : Option Char) : List Char → Option (Char × List Char)
  | '|' :: r => some ('|', r)
  | _ => none

/-- Collapse every maximal whitespace run to one plain space. -/
def tasserEspaces : List Char → List Char
  | [] => []
  | [c] => if estEspacePy c then [' '] else [c]
  | c :: d :: t =>
    if estEspacePy c && estEspacePy d then tasserEspaces (d :: t)
    else (if estEspacePy c then ' ' else c) :: tasserEspaces (d :: t)

/-- Python `str.strip`. -/
def depouiller (l : List Char) : List Char :=
  ((l.dropWhile estEspacePy).reverse.dropWhile estEspacePy).reverse

/-- Python `str.capitalize`: the first character is title-cased (on
Latin letters, uppercased) and every following character is lowercased. -/
def capitaliser : List Char → List Char
  | [] => []
  | c :: cs => majusculeFr c :: cs.map minusculeFr

/-- The stages of `simplifier_titre` before the final `capitalize`:
strip hour mentions, remove the noise tokens in source order, map
hyphens and underscores to spaces, collapse whitespace, trim. -/
def etapesTitre (l : List Char) : List Char :=
  let t := appliquerSub essaiHeures [] l
  let t := appliquerSub (essaiDeuxMots ("temps".toList) ("plein".toList)) [' '] t
  let t := appliquerSub (essaiDeuxMots ("temps".toList) ("partiel".toList)) [' '] t
  let t := appliquerSub (essaiMotEntier ("CDI".toList)) [' '] t
  let t := appliquerSub (essaiMotEntier ("CDD".toList)) [' '] t
  let t := appliquerSub (essaiMotEntier ("Intérim".toList)) [' '] t
  let t := appliquerSub (essaiMotEntier ("Stage".toList)) [' '] t
  let t := appliquerSub (essaiMotEntier ("Alternance".toList)) [' '] t
  let t := appliquerSub (essaiMotEntier ("H/F".toList)) [' '] t
  let t := appliquerSub (essaiMotEntier ("F/H".toList)) [' '] t
  let t := appliquerSub essaiQuoteParentheses [' '] t
  let t := appliquerSub essaiTiretIsole [' '] t
  let t := appliquerSub essaiBarre [' '] t
  let t := t.map (fun c => if c = '-' ∨ c = '_' then ' ' else c)
  let t := tasserEspaces t
  depouiller t

/-- The title canonicalizer `simplifier_titre` (traitement.py lines 70–94).  The embedding takes
a `String`, so the non-string branch of the source (result `"Inconnu"`)
is outside its domain. -/
def simplifier_titre (titre : String) : String :=
  String.mk (capitaliser (etapesTitre titre.toList))

/-! ## Location splitter (`separer_localisation`, traitement.py lines 97–119) -/

/-- The separator of city and department. -/
def sepVilleDept : List Char := [' ', '-', ' ']

/-- The split `rsplit(' - ', 1)`: split on the last occurrence of the separator;
`none` when the separator does not occur. -/
def rsplitDernier : List Char → Option (List Char × List Char)
  | [] => none
  | c :: cs =>
    match rsplitDernier cs with
    | some (a, b) => some (c :: a, b)
    | none =>
      if sepVilleDept.isPrefixOf (c :: cs) then some ([], (c :: cs).drop 3)
      else none

/-- Strip the trailing arrondissement suffix: one whitespace character,
digits, and an optional `er`, `e` or `ème`, anchored at the end of the
string.  At any given string at most one of the four suffix alternatives
can complete the anchored match, so trying them in a fixed order is
equivalent to the regex. -/
def enleverArrondissement (ville : List Char) : List Char :=
  let r := ville.reverse
  let essayer : List Char → Option (List Char) := fun suffixeInv =>
    if suffixeInv.isPrefixOf r then
      let r2 := r.drop suffixeInv.length
      if (r2.takeWhile estChiffre).isEmpty then none
      else
        match r2.dropWhile estChiffre with
        | c :: reste => if estEspacePy c then some reste else none
        | [] => none
    else none
  match essayer ['r', 'e'] with
  | some reste => reste.reverse
  | none =>
    match essayer ['e', 'm', 'è'] with
    | some reste => reste.reverse
    | none =>
      match essayer ['e'] with
      | some reste => reste.reverse
      | none =>
        match essayer [] with
        | some reste => reste.reverse
        | none => ville

/-- The location splitter `separer_localisation` (traitement.py lines 97–119).  The embedding
takes a `String`, so the non-string branch of the source (the
`("Inconnu", "Inconnu")` pair) is outside its domain. -/
def separer_localisation (loc : String) : String × String :=
  match rsplitDernier loc.toList with
  | some (a, b) =>
    (String.mk (enleverArrondissement (depouiller a)), String.mk (depouiller b))
  | none =>
    (String.mk (enleverArrondissement (depouiller loc.toList)), "France")

/-! ## Harvest loop (`lancer_scraping_france`, scraping.py lines 24–171) -/

/-- One raw record, the columns of the scraped dataset. -/
structure Enregistrement where
  titre : String
  entreprise : String
  localisation : String
  contrat : String
  salaire : String
  lien : String
deriving DecidableEq

/-- The target count `OBJECTIF` of scraping.py. -/
def OBJECTIF : Nat := 1000

/-- What one run observes externally: whether the initial fetch of the
base search URL raises, the extraction outcome of every card of every
results page (`none` means the per-card extraction raised or produced an
empty title, so the card is skipped), and whether the fetch of a given
results page number raises. -/
structure EnvScraping where
  echecRequeteInitiale : Bool
  pages : Nat → List (Option Enregistrement)
  echecRequetePage : Nat → Bool

/-- Observable events of one run: driver acquisition, the fetch of the
base URL, the page-number report of each loop iteration, the fetch of a
numbered results page, `driver.quit()`, and an exception leaving the
function. -/
inductive Evt where
  | acquisition : Evt
  | requeteInitiale : Evt
  | pageVisitee : Nat → Evt
  | requete : Nat → Evt
  | quit : Evt
  | exceptionSortie : Evt
deriving DecidableEq

/-- How the harvesting loop ended: normally (target reached or empty
page — the source does not distinguish the two), out of fuel, or by an
exception raised by a page fetch. -/
inductive Statut where
  | termine : Statut
  | epuise : Statut
  | exceptionPage : Statut
deriving DecidableEq

/-- The per-card scan of one page (scraping.py lines 79–148): a skipped
card leaves the accumulator unchanged; a successful card is appended,
and the scan breaks as soon as the accumulated count reaches the
target.  Returns the new accumulator and whether the early `break`
fired. -/
def traiterCartes (objectif : Nat) :
    List (Option Enregistrement) → List Enregistrement →
      List Enregistrement × Bool
  | [], donnees => (donnees, false)
  | carte :: suite, donnees =>
    match carte with
    | none => traiterCartes objectif suite donnees
    | some e =>
      let donnees2 := donnees ++ [e]
      if objectif ≤ donnees2.length then (donnees2, true)
      else traiterCartes objectif suite donnees2

/-- The `while len(donnees) < OBJECTIF` loop (scraping.py lines 69–155),
fuelled by the number of remaining iterations.  Each iteration: report
the page number, read the page's cards, stop on an empty page;
otherwise scan the cards, then increment the page number and request
the next results page — the source issues this request even when the
card scan has just reached the target.  Returns the emitted events, the
accumulator, and how the loop ended. -/
def boucle (env : EnvScraping) (objectif : Nat) :
    Nat → Nat → List Enregistrement →
      List Evt × List Enregistrement × Statut
  | 0, _, donnees =>
    if objectif ≤ donnees.length then ([], donnees, Statut.termine)
    else ([], donnees, Statut.epuise)
  | carb + 1, page, donnees =>
    if objectif ≤ donnees.length then ([], donnees, Statut.termine)
    else
      let cartes := env.pages page
      if cartes.isEmpty then ([Evt.pageVisitee page], donnees, Statut.termine)
      else
        let resultat := traiterCartes objectif cartes donnees
        let evts1 := [Evt.pageVisitee page, Evt.requete (page + 1)]
        if env.echecRequetePage (page + 1) then
          (evts1, resultat.1, Statut.exceptionPage)
        else
          let suite := boucle env objectif carb (page + 1) resultat.1
          (evts1 ++ suite.1, suite.2)

/-- The observable outcome of one run. -/
structure ResultatScraping where
  evts : List Evt
  donnees : List Enregistrement
  statut : Statut
deriving DecidableEq

/-- The run `lancer_scraping_france` (scraping.py lines 24–171) after a
successful driver acquisition.  The initial `driver.get(url_base)`
(line 53) is executed before the `try:` block of line 58 is entered, so
an exception raised there propagates without reaching the `finally:`;
once the `try:` block is entered, the `finally:` always runs
`driver.quit()`, and an exception raised by a page fetch inside the
loop propagates after the quit. -/
def lancer_scraping_france (env : EnvScraping) (carb : Nat) : ResultatScraping :=
  if env.echecRequeteInitiale then
    { evts := [Evt.acquisition, Evt.requeteInitiale, Evt.exceptionSortie]
      donnees := []
      statut := Statut.exceptionPage }
  else
    let r := boucle env OBJECTIF carb 1 []
    { evts := [Evt.acquisition, Evt.requeteInitiale] ++ r.1 ++ [Evt.quit] ++
        (if r.2.2 = Statut.exceptionPage then [Evt.exceptionSortie] else [])
      donnees := r.2.1
      statut := r.2.2 }

/-! ## Normalization pipeline (`lancer_traitement_final`,
traitement.py lines 122–168) -/

/-- One clean output row, the columns selected for export. -/
structure EnregistrementPropre where
  titreSimplifie : String
  entreprise : String
  ville : String
  departement : String
  contrat : String
  salaireAnnuel : Option ℚ
deriving DecidableEq

/-- One row's transformation (traitement.py lines 140–151): the three
normalizers applied to the raw columns, projected onto the output
columns.  The raw link column is dropped by the projection. -/
def nettoyerLigne (r : Enregistrement) : EnregistrementPropre :=
  { titreSimplifie := simplifier_titre r.titre
    entreprise := r.entreprise
    ville := (separer_localisation r.localisation).1
    departement := (separer_localisation r.localisation).2
    contrat := r.contrat
    salaireAnnuel := nettoyer_salaire r.salaire }

/-- The deduplication key `(Titre_Simplifie, Entreprise, Ville)`. -/
def cleDedup (r : EnregistrementPropre) : String × String × String :=
  (r.titreSimplifie, r.entreprise, r.ville)

/-- Pandas `drop_duplicates(subset=['Titre_Simplifie','Entreprise','Ville'])`
with the default `keep='first'`: keep a row iff its key has not been
seen on an earlier row. -/
def dedoublonner (vus : List (String × String × String)) :
    List EnregistrementPropre → List EnregistrementPropre
  | [] => []
  | r :: rs =>
    if cleDedup r ∈ vus then dedoublonner vus rs
    else r :: dedoublonner (cleDedup r :: vus) rs

/-- The pipeline `lancer_traitement_final` (traitement.py lines 122–168) on an
already-loaded list of raw rows; the CSV input and output and the
summary statistics prints are outside the model. -/
def lancer_traitement_final (lignes : List Enregistrement) :
    List EnregistrementPropre :=
  dedoublonner [] (lignes.map nettoyerLigne)

/-! ## Rounding lemmas -/

lemma arrondirDemiPair_ge (n : ℤ) (q : ℚ) (h : (n : ℚ) ≤ q) :
    n ≤ arrondirDemiPair q := by
  have h1 : n ≤ ⌊q⌋ := Int.le_floor.mpr h
  unfold arrondirDemiPair
  split_ifs <;> omega

lemma arrondirDemiPair_le (n : ℤ) (q : ℚ) (h : q ≤ (n : ℚ)) :
    arrondirDemiPair q ≤ n := by
  have h1 : ⌊q⌋ ≤ n := by
    have h2 := Int.floor_le_floor h
    simpa using h2
  have h3 : ¬Int.fract q < 1 / 2 → ⌊q⌋ + 1 ≤ n := by
    intro hf
    have h4 : (⌊q⌋ : ℚ) + 1 / 2 ≤ q := by
      have h5 := Int.floor_add_fract q
      have h6 : (1 : ℚ) / 2 ≤ Int.fract q := le_of_not_lt hf
      linarith
    have h7 : (⌊q⌋ : ℚ) < (n : ℚ) := by linarith
    have h8 : ⌊q⌋ < n := by exact_mod_cast h7
    omega
  unfold arrondirDemiPair
  split_ifs with hf hg hp
  · exact h1
  · exact h3 hf
  · exact h1
  · exact h3 hf

lemma arrondirDemiPair_intCast (z : ℤ) : arrondirDemiPair (z : ℚ) = z := by
  unfold arrondirDemiPair
  rw [Int.fract_intCast, Int.floor_intCast]
  norm_num

lemma div_cent_ge (z : ℤ) (h : 1400000 ≤ z) : (14000 : ℚ) ≤ (z : ℚ) / 100 := by
  rw [le_div_iff₀ (by norm_num : (0 : ℚ) < 100)]
  have h2 : ((1400000 : ℤ) : ℚ) ≤ (z : ℚ) := Int.cast_le.mpr h
  push_cast at h2
  linarith

lemma div_cent_le (z : ℤ) (h : z ≤ 20000000) : (z : ℚ) / 100 ≤ 200000 := by
  rw [div_le_iff₀ (by norm_num : (0 : ℚ) < 100)]
  have h2 : (z : ℚ) ≤ ((20000000 : ℤ) : ℚ) := Int.cast_le.mpr h
  push_cast at h2
  linarith

/-- Every present result of the outlier filter is within the plausible
band and is an integer number of hundredths. -/
lemma filtrerAberrants_forme (sa v : ℚ) (h : filtrerAberrants sa = some v) :
    (14000 ≤ v ∧ v ≤ 200000) ∧ ∃ z : ℤ, v = (z : ℚ) / 100 := by
  unfold filtrerAberrants at h
  split_ifs at h with hcond
  push_neg at hcond
  obtain ⟨hlo, hhi⟩ := hcond
  have hlo2 : (14000 : ℚ) ≤ sa := hlo
  have hhi2 : sa ≤ (200000 : ℚ) := hhi
  have hv : arrondir2 sa = v := Option.some.inj h
  have hge : (1400000 : ℤ) ≤ arrondirDemiPair (100 * sa) := by
    apply arrondirDemiPair_ge
    push_cast
    linarith
  have hle : arrondirDemiPair (100 * sa) ≤ (20000000 : ℤ) := by
    apply arrondirDemiPair_le
    push_cast
    linarith
  refine ⟨⟨?_, ?_⟩, arrondirDemiPair (100 * sa), ?_⟩
  · rw [← hv]
    exact div_cent_ge _ hge
  · rw [← hv]
    exact div_cent_le _ hle
  · rw [← hv]
    rfl

/-- C1: for every input string, if `nettoyer_salaire` returns a present
value `v` then `14000 ≤ v ≤ 200000`; every other outcome is the absence
marker `none`, the bounds being applied exactly at these two constants. -/
theorem nettoyer_salaire_bornes (s : String) (v : ℚ)
    (h : nettoyer_salaire s = some v) : 14000 ≤ v ∧ v ≤ 200000 := by
  simp only [nettoyer_salaire] at h
  split at h
  · exact absurd h (by simp)
  · split at h
    · exact absurd h (by simp)
    · exact (filtrerAberrants_forme _ _ h).1

/-- Witness for C1 at the concrete input `"2000 € / mois"`. -/
theorem nettoyer_salaire_bornes_temoin :
    nettoyer_salaire ("2000 € / mois") = some 24000 ∧
      14000 ≤ (24000 : ℚ) ∧ (24000 : ℚ) ≤ 200000 :=
  ⟨by with_unfolding_all rfl,
    nettoyer_salaire_bornes ("2000 € / mois") 24000 (by with_unfolding_all rfl)⟩

/-- C2: the salary normalizer maps `"2000 € / mois"` to `24000.0`
(month keyword, multiplier 12), `"12 € / heure"` to `21840.48`
(hour keyword, multiplier 151.67 × 12), and `"35k €"` to `35000.0`
(`k` expanded to `000`, no unit keyword, value outside the
`[1200, 12000]` band, multiplier 1). -/
theorem nettoyer_salaire_exemples :
    nettoyer_salaire ("2000 € / mois") = some 24000 ∧
      nettoyer_salaire ("12 € / heure") = some ((2184048 : ℚ) / 100) ∧
      nettoyer_salaire ("35k €") = some 35000 := by
  refine ⟨?_, ?_, ?_⟩ <;> with_unfolding_all rfl

/-! ## Harvest loop lemmas and theorems (C4, C5, C6) -/

/-- An empty record and small environments used to exercise the loop
theorems on concrete runs. -/
def enregVide : Enregistrement :=
  ⟨"", "", "", "", "", ""⟩

def envEchecInitial : EnvScraping :=
  ⟨true, fun _ => [], fun _ => false⟩

def envSansEchec : EnvScraping :=
  ⟨false, fun _ => [], fun _ => false⟩

def envUnePage : EnvScraping :=
  ⟨false, fun p => if p = 1 then [some enregVide] else [], fun _ => false⟩

lemma traiterCartes_borne (objectif : Nat) (cartes : List (Option Enregistrement))
    (donnees : List Enregistrement) (h : donnees.length < objectif) :
    (traiterCartes objectif cartes donnees).1.length ≤ objectif := by
  induction cartes generalizing donnees with
  | nil => simpa using Nat.le_of_lt h
  | cons carte suite ih =>
    cases carte with
    | none => exact ih donnees h
    | some e =>
      simp only [traiterCartes]
      split_ifs with hc
      · simp only [List.length_append, List.length_singleton]
        omega
      · apply ih
        simp only [List.length_append, List.length_singleton] at hc ⊢
        omega

lemma traiterCartes_break (objectif : Nat)
    (cartes1 cartes2 : List (Option Enregistrement))
    (donnees : List Enregistrement)
    (h : (traiterCartes objectif cartes1 donnees).2 = true) :
    traiterCartes objectif (cartes1 ++ cartes2) donnees =
      traiterCartes objectif cartes1 donnees := by
  induction cartes1 generalizing donnees with
  | nil => simp [traiterCartes] at h
  | cons carte suite ih =>
    cases carte with
    | none =>
      simp only [List.cons_append, traiterCartes] at h ⊢
      exact ih donnees h
    | some e =>
      simp only [List.cons_append, traiterCartes] at h ⊢
      split_ifs at h ⊢ with hc
      · rfl
      · exact ih _ h

lemma boucle_borne (env : EnvScraping) (objectif carb page : Nat)
    (donnees : List Enregistrement) (h : donnees.length ≤ objectif) :
    (boucle env objectif carb page donnees).2.1.length ≤ objectif := by
  induction carb generalizing page donnees with
  | zero =>
    simp only [boucle]
    split_ifs <;> simpa using h
  | succ carb ih =>
    simp only [boucle]
    split_ifs with h1 h2 h3
    · simpa using h
    · simpa using h
    · exact traiterCartes_borne _ _ _ (Nat.lt_of_not_le h1)
    · exact ih _ _ (traiterCartes_borne _ _ _ (Nat.lt_of_not_le h1))

/-- C6: the accumulator of a run never exceeds the target `OBJECTIF`; a
run whose accumulator reaches the target has exactly `OBJECTIF` records;
and the per-page card scan, once its early break has fired (the count
reached the target), ignores every remaining card of the page. -/
theorem scraping_objectif_exact (env : EnvScraping) (carb objectif : Nat) :
    (lancer_scraping_france env carb).donnees.length ≤ OBJECTIF ∧
    (OBJECTIF ≤ (lancer_scraping_france env carb).donnees.length →
      (lancer_scraping_france env carb).donnees.length = OBJECTIF) ∧
    ∀ (cartes1 cartes2 : List (Option Enregistrement))
      (acc : List Enregistrement),
      (traiterCartes objectif cartes1 acc).2 = true →
      traiterCartes objectif (cartes1 ++ cartes2) acc =
        traiterCartes objectif cartes1 acc := by
  have hB : (lancer_scraping_france env carb).donnees.length ≤ OBJECTIF := by
    unfold lancer_scraping_france
    split_ifs
    · simp
    · exact boucle_borne env OBJECTIF carb 1 [] (by simp)
  refine ⟨hB, fun h2 => le_antisymm hB h2, fun c1 c2 acc h => ?_⟩
  exact traiterCartes_break objectif c1 c2 acc h

/-- Witness for C6: a target of 1, one successful card followed by a
second card that the fired break must ignore. -/
theorem scraping_objectif_exact_temoin :
    (traiterCartes 1 [some enregVide] ([] : List Enregistrement)).2 = true ∧
    traiterCartes 1 ([some enregVide] ++ [some enregVide]) [] =
      traiterCartes 1 [some enregVide] [] :=
  ⟨by decide,
    (scraping_objectif_exact envSansEchec 0 1).2.2 [some enregVide]
      [some enregVide] [] (by decide)⟩

/-- C5 counterexample: with a target of 1 and a single successful card
on page 1, the scan reaches the target on page 1, yet the loop still
requests page 2 before its guard is re-checked — contradicting "once
the target count is reached no further page is requested". -/
theorem boucle_requete_apres_objectif :
    (boucle envUnePage 1 5 1 []).2.1.length = 1 ∧
      Evt.requete 2 ∈ (boucle envUnePage 1 5 1 []).1 := by
  refine ⟨?_, ?_⟩ <;> decide

/-- C5 amended: an iteration entered with the count below the target
requests the next page iff the current page contains at least one card —
the request is issued even when that page's scan has just reached the
target; and once the count is at least the target at the loop guard, the
loop stops with no further event, so at most one request follows the
reaching of the target. -/
theorem boucle_requete_ssi (env : EnvScraping) (objectif carb page : Nat) :
    (∀ donnees : List Enregistrement, donnees.length < objectif →
      (Evt.requete (page + 1) ∈ (boucle env objectif (carb + 1) page donnees).1 ↔
        env.pages page ≠ [])) ∧
    (∀ donnees : List Enregistrement, objectif ≤ donnees.length →
      boucle env objectif carb page donnees = ([], donnees, Statut.termine)) := by
  constructor
  · intro donnees h
    simp only [boucle]
    split_ifs with h1 h2 h3
    · omega
    · rw [List.isEmpty_iff] at h2
      simp [h2]
    · rw [List.isEmpty_iff] at h2
      simp [h2]
    · rw [List.isEmpty_iff] at h2
      simp [h2]
  · intro donnees h
    cases carb with
    | zero => simp [boucle, h]
    | succ carb => simp [boucle, h]

/-- Witness for C5's amended theorem: both conjuncts at a concrete
environment. -/
theorem boucle_requete_ssi_temoin :
    (([] : List Enregistrement).length < 1 ∧
      (Evt.requete 2 ∈ (boucle envUnePage 1 3 1 []).1 ↔
        envUnePage.pages 1 ≠ [])) ∧
    (1 ≤ [enregVide].length ∧
      boucle envUnePage 1 2 1 [enregVide] = ([], [enregVide], Statut.termine)) :=
  ⟨⟨by decide, (boucle_requete_ssi envUnePage 1 2 1).1 [] (by decide)⟩,
    ⟨by decide, (boucle_requete_ssi envUnePage 1 2 1).2 [enregVide] (by decide)⟩⟩

/-- C4 (code bug in the source): when the initial fetch of the base URL
raises, the run ends with the driver acquired but `driver.quit()` never
executed, because `driver.get(url_base)` stands before the
`try/finally`; by contrast a run that enters the `try:` block always
quits. -/
theorem scraping_quit_manque :
    (Evt.acquisition ∈ (lancer_scraping_france envEchecInitial 5).evts ∧
      Evt.quit ∉ (lancer_scraping_france envEchecInitial 5).evts) ∧
    Evt.quit ∈ (lancer_scraping_france envSansEchec 5).evts := by
  refine ⟨⟨?_, ?_⟩, ?_⟩ <;> decide

/-! ## The substring test against `List.IsInfix` -/

lemma estInfixe_vrai (p l : List Char) : estInfixe p l = true ↔ p <:+: l := by
  induction l with
  | nil =>
    simp only [estInfixe, List.isEmpty_iff]
    constructor
    · intro h
      subst h
      exact ⟨[], [], rfl⟩
    · intro h
      have h2 := h.sublist.length_le
      exact List.length_eq_zero.mp (Nat.le_zero.mp h2)
  | cons c cs ih =>
    simp only [estInfixe, Bool.or_eq_true, List.isPrefixOf_iff_prefix, ih]
    exact (List.infix_cons_iff).symm

lemma estInfixe_faux (p l : List Char) (h : estInfixe p l = false) :
    ¬ p <:+: l := by
  intro hI
  rw [(estInfixe_vrai p l).mpr hI] at h
  exact Bool.noConfusion h

lemma estInfixe_sous (p l : List Char) (h : estInfixe p l = true) : p ⊆ l :=
  ((estInfixe_vrai p l).mp h).subset

lemma estInfixe_absent (p l : List Char) (x : Char) (hx : x ∈ p)
    (hl : x ∉ l) : estInfixe p l = false := by
  cases hb : estInfixe p l
  · rfl
  · exact absurd (estInfixe_sous p l hb hx) hl

/-! ## Title capitalization (C3) -/

lemma toList_mk (l : List Char) : (String.mk l).toList = l := rfl

lemma getD_map_lt (f : Char → Char) (l : List Char) (i : Nat) (d : Char)
    (h : i < l.length) : (l.map f).getD i d = f (l.getD i d) := by
  induction l generalizing i with
  | nil => simp at h
  | cons c cs ih =>
    cases i with
    | zero => simp
    | succ j =>
      simp only [List.map_cons, List.getD_cons_succ]
      exact ih j (by simpa using h)

/-- The final step the spec describes for `simplifier_titre`: upper-case
only the first character and leave the case of every remaining character
unchanged.  Stated from the spec's words, for comparison with the
source's `capitaliser`. -/
def capitaliserSelonSpec : List Char → List Char
  | [] => []
  | c :: cs => majusculeFr c :: cs

/-- C3 counterexample: on `"ABC"` the stages before capitalization leave
`"ABC"` unchanged, so the claim predicts the output `"ABC"`; the
source's `str.capitalize` lower-cases the remaining characters and
returns `"Abc"`. -/
theorem simplifier_titre_minuscules_contre :
    etapesTitre (("ABC").toList) = ("ABC").toList ∧
      simplifier_titre ("ABC") = ("Abc") ∧
      simplifier_titre ("ABC") ≠
        String.mk (capitaliserSelonSpec (etapesTitre (("ABC").toList))) := by
  refine ⟨?_, ?_, ?_⟩ <;> decide

/-- C3 amended: for every input, `simplifier_titre` applies the noise
stripping, hyphen/underscore replacement, whitespace collapsing and
trimming of `etapesTitre`, then upper-cases the first character of the
result and lower-cases (rather than leaves unchanged) every remaining
character; in particular the spec's example holds. -/
theorem simplifier_titre_capitalise (s : String) (i : Nat)
    (h : i < (etapesTitre s.toList).length) :
    (simplifier_titre s).toList.getD i 'x' =
      (if i = 0 then majusculeFr else minusculeFr)
        ((etapesTitre s.toList).getD i 'x') ∧
    simplifier_titre ("Développeur (CDI) - 35h") = ("Développeur") := by
  have hs : (simplifier_titre s).toList = capitaliser (etapesTitre s.toList) := by
    simp only [simplifier_titre, toList_mk]
  refine ⟨?_, by decide⟩
  rw [hs]
  cases hE : etapesTitre s.toList with
  | nil =>
    rw [hE] at h
    simp at h
  | cons c cs =>
    rw [hE] at h
    cases i with
    | zero => simp [capitaliser]
    | succ j =>
      rw [if_neg (Nat.succ_ne_zero j)]
      simp only [capitaliser, List.getD_cons_succ]
      refine getD_map_lt minusculeFr cs j 'x' ?_
      simp only [List.length_cons] at h
      omega

/-- Witness for C3's amended theorem at `"ABC"`, index 1. -/
theorem simplifier_titre_capitalise_temoin :
    1 < (etapesTitre (("ABC").toList)).length ∧
      ((simplifier_titre ("ABC")).toList.getD 1 'x' =
        (if 1 = 0 then majusculeFr else minusculeFr)
          ((etapesTitre (("ABC").toList)).getD 1 'x') ∧
        simplifier_titre ("Développeur (CDI) - 35h") = ("Développeur")) :=
  ⟨by decide, simplifier_titre_capitalise ("ABC") 1 (by decide)⟩

/-! ## Location splitter lemmas and theorem (C7) -/

lemma rsplitDernier_decomp (l a b : List Char)
    (h : rsplitDernier l = some (a, b)) : l = a ++ sepVilleDept ++ b := by
  induction l generalizing a b with
  | nil => simp [rsplitDernier] at h
  | cons c cs ih =>
    rw [rsplitDernier] at h
    cases hcs : rsplitDernier cs with
    | some p =>
      obtain ⟨a0, b0⟩ := p
      rw [hcs] at h
      have h2 : (c :: a0, b0) = (a, b) := Option.some.inj h
      have ha : a = c :: a0 := (congrArg Prod.fst h2).symm
      have hb : b = b0 := (congrArg Prod.snd h2).symm
      rw [ha, hb]
      have h3 := ih a0 b0 hcs
      simp [h3]
    | none =>
      rw [hcs] at h
      split_ifs at h with hp
      have h2 : (([] : List Char), List.drop 3 (c :: cs)) = (a, b) :=
        Option.some.inj h
      have ha : a = [] := (congrArg Prod.fst h2).symm
      have hb : b = List.drop 3 (c :: cs) := (congrArg Prod.snd h2).symm
      subst ha
      subst hb
      have hpre : sepVilleDept <+: c :: cs := List.isPrefixOf_iff_prefix.mp hp
      obtain ⟨t, ht⟩ := hpre
      have hlen : sepVilleDept.length = 3 := rfl
      have hd : List.drop 3 (c :: cs) = t := by
        rw [← ht, ← hlen]
        exact List.drop_left sepVilleDept t
      rw [hd, ← ht]
      simp

lemma rsplitDernier_some_of_decomp (a : List Char) :
    ∀ b l : List Char, l = a ++ sepVilleDept ++ b → rsplitDernier l ≠ none := by
  induction a with
  | nil =>
    intro b l hl
    subst hl
    show rsplitDernier (' ' :: '-' :: ' ' :: b) ≠ none
    rw [rsplitDernier]
    cases hr : rsplitDernier ('-' :: ' ' :: b) with
    | some p =>
      obtain ⟨x, y⟩ := p
      simp [hr]
    | none =>
      have hp : sepVilleDept <+: ' ' :: '-' :: ' ' :: b := ⟨b, rfl⟩
      simp [hr, hp]
  | cons c a' ih =>
    intro b l hl
    subst hl
    have h3 : (c :: a') ++ sepVilleDept ++ b = c :: (a' ++ sepVilleDept ++ b) := by
      simp
    rw [h3, rsplitDernier]
    cases hr : rsplitDernier (a' ++ sepVilleDept ++ b) with
    | some p =>
      obtain ⟨x, y⟩ := p
      simp [hr]
    | none => exact absurd hr (ih b _ rfl)

lemma rsplitDernier_dernier (a b : List Char)
    (hocc : ¬ sepVilleDept <:+:
      List.drop (a.length + 1) (a ++ sepVilleDept ++ b)) :
    rsplitDernier (a ++ sepVilleDept ++ b) = some (a, b) := by
  induction a with
  | nil =>
    have hdrop : List.drop (([] : List Char).length + 1)
        (([] : List Char) ++ sepVilleDept ++ b) = '-' :: ' ' :: b := rfl
    rw [hdrop] at hocc
    have hnone : rsplitDernier ('-' :: ' ' :: b) = none := by
      cases hr : rsplitDernier ('-' :: ' ' :: b) with
      | none => rfl
      | some p =>
        obtain ⟨a0, b0⟩ := p
        have hd := rsplitDernier_decomp _ _ _ hr
        exact absurd ⟨a0, b0, hd.symm⟩ hocc
    show rsplitDernier (' ' :: '-' :: ' ' :: b) = some ([], b)
    rw [rsplitDernier, hnone]
    have hp : sepVilleDept <+: ' ' :: '-' :: ' ' :: b := ⟨b, rfl⟩
    simp [hp]
  | cons c a' ih =>
    have hocc' : ¬ sepVilleDept <:+:
        List.drop (a'.length + 1) (a' ++ sepVilleDept ++ b) := by
      intro hcontra
      apply hocc
      have heq : List.drop ((c :: a').length + 1) ((c :: a') ++ sepVilleDept ++ b) =
          List.drop (a'.length + 1) (a' ++ sepVilleDept ++ b) := by
        simp only [List.length_cons, List.cons_append, List.drop_succ_cons]
      rw [heq]
      exact hcontra
    have h2 := ih hocc'
    have h3 : (c :: a') ++ sepVilleDept ++ b = c :: (a' ++ sepVilleDept ++ b) := by
      simp
    rw [h3, rsplitDernier, h2]

/-- C7: `separer_localisation` splits on the last occurrence of the
separator `" - "` (no occurrence starts after it): the stripped left
part becomes the city and the stripped right part the department; when
the separator does not occur anywhere, the whole stripped string becomes
the city and the department is `"France"`; in both cases the trailing
arrondissement suffix is then removed from the city; and the two
examples of the spec hold. -/
theorem separer_localisation_spec (s : String) :
    (∀ a b : List Char,
      s.toList = a ++ sepVilleDept ++ b →
      ¬ sepVilleDept <:+: List.drop (a.length + 1) s.toList →
      separer_localisation s =
        (String.mk (enleverArrondissement (depouiller a)),
          String.mk (depouiller b))) ∧
    ((∀ a b : List Char, s.toList ≠ a ++ sepVilleDept ++ b) →
      separer_localisation s =
        (String.mk (enleverArrondissement (depouiller s.toList)), "France")) ∧
    separer_localisation ("Paris 15e - 75") = (("Paris"), ("75")) ∧
    separer_localisation ("Lyon") = (("Lyon"), ("France")) := by
  refine ⟨?_, ?_, by decide, by decide⟩
  · intro a b hdec hocc
    unfold separer_localisation
    rw [hdec] at hocc
    have h2 := rsplitDernier_dernier a b hocc
    rw [hdec, h2]
  · intro hno
    have hnone : rsplitDernier s.toList = none := by
      cases hr : rsplitDernier s.toList with
      | none => rfl
      | some p =>
        obtain ⟨a0, b0⟩ := p
        exact absurd (rsplitDernier_decomp _ _ _ hr) (hno a0 b0)
    unfold separer_localisation
    rw [hnone]

/-- Witness for C7: conjunct one at `"Paris 15e - 75"` with the split at
the last separator, conjunct two at `"Lyon"`. -/
theorem separer_localisation_spec_temoin :
    ("Paris 15e - 75").toList =
        ("Paris 15e").toList ++ sepVilleDept ++ ("75").toList ∧
      separer_localisation ("Paris 15e - 75") =
        (String.mk (enleverArrondissement (depouiller (("Paris 15e").toList))),
          String.mk (depouiller (("75").toList))) ∧
      separer_localisation ("Lyon") =
        (String.mk (enleverArrondissement (depouiller (("Lyon").toList))),
          "France") :=
  ⟨by decide,
    (separer_localisation_spec ("Paris 15e - 75")).1 (("Paris 15e").toList)
      (("75").toList) (by decide)
      (estInfixe_faux sepVilleDept
        (List.drop ((("Paris 15e").toList).length + 1)
          (("Paris 15e - 75").toList)) (by decide)),
    (separer_localisation_spec ("Lyon")).2.1 (fun a b h =>
      absurd (⟨a, b, h.symm⟩ : sepVilleDept <:+: ("Lyon").toList)
        (estInfixe_faux sepVilleDept (("Lyon").toList) (by decide)))⟩

/-! ## Deduplication lemmas and theorems (C9, C10) -/

lemma dedoublonner_sublist (vus : List (String × String × String))
    (l : List EnregistrementPropre) : (dedoublonner vus l).Sublist l := by
  induction l generalizing vus with
  | nil => simp [dedoublonner]
  | cons r rs ih =>
    simp only [dedoublonner]
    split_ifs with hv
    · exact (ih vus).trans (List.sublist_cons_self r rs)
    · exact (ih _).cons₂ r

lemma dedoublonner_premier (vus : List (String × String × String))
    (l : List EnregistrementPropre) (r : EnregistrementPropre)
    (h : r ∈ dedoublonner vus l) :
    cleDedup r ∉ vus ∧
      l.find? (fun x => decide (cleDedup x = cleDedup r)) = some r := by
  induction l generalizing vus with
  | nil => simp [dedoublonner] at h
  | cons x rs ih =>
    simp only [dedoublonner] at h
    split_ifs at h with hv
    · obtain ⟨h1, h2⟩ := ih vus h
      have hne : cleDedup x ≠ cleDedup r := by
        intro he
        exact h1 (he ▸ hv)
      refine ⟨h1, ?_⟩
      rw [List.find?_cons_of_neg _ (by simpa using hne), h2]
    · rcases List.mem_cons.mp h with h | h
      · subst h
        refine ⟨hv, ?_⟩
        rw [List.find?_cons_of_pos _ (by simp)]
      · obtain ⟨h1, h2⟩ := ih (cleDedup x :: vus) h
        have hne : cleDedup x ≠ cleDedup r := by
          intro he
          exact h1 (by rw [← he]; exact List.mem_cons_self _ _)
        refine ⟨fun hc => h1 (List.mem_cons_of_mem _ hc), ?_⟩
        rw [List.find?_cons_of_neg _ (by simpa using hne), h2]

lemma dedoublonner_couvre (l : List EnregistrementPropre)
    (r : EnregistrementPropre) :
    ∀ vus : List (String × String × String), r ∈ l → cleDedup r ∉ vus →
      ∃ r', r' ∈ dedoublonner vus l ∧ cleDedup r' = cleDedup r := by
  induction l with
  | nil =>
    intro vus h hv
    simp at h
  | cons x rs ih =>
    intro vus h hv
    simp only [dedoublonner]
    rcases List.mem_cons.mp h with h | h
    · have hx : cleDedup x ∉ vus := by
        rw [← h]
        exact hv
      rw [if_neg hx]
      exact ⟨x, List.mem_cons_self _ _, by rw [h]⟩
    · by_cases hx : cleDedup x ∈ vus
      · rw [if_pos hx]
        exact ih vus h hv
      · rw [if_neg hx]
        by_cases hcle : cleDedup r = cleDedup x
        · exact ⟨x, List.mem_cons_self _ _, hcle.symm⟩
        · obtain ⟨r', hr1, hr2⟩ := ih (cleDedup x :: vus) h (by
            intro hc
            rcases List.mem_cons.mp hc with hc | hc
            · exact hcle hc
            · exact hv hc)
          exact ⟨r', List.mem_cons_of_mem _ hr1, hr2⟩

lemma dedoublonner_nodup (vus : List (String × String × String))
    (l : List EnregistrementPropre) :
    ((dedoublonner vus l).map cleDedup).Nodup := by
  induction l generalizing vus with
  | nil => simp [dedoublonner]
  | cons x rs ih =>
    simp only [dedoublonner]
    split_ifs with hx
    · exact ih vus
    · simp only [List.map_cons, List.nodup_cons]
      constructor
      · intro hmem
        obtain ⟨r', hr', heq⟩ := List.mem_map.mp hmem
        have h1 := (dedoublonner_premier _ _ _ hr').1
        apply h1
        rw [heq]
        exact List.mem_cons_self _ _
      · exact ih _

/-- C9: the pipeline's deduplication keeps, in their original relative
order, exactly the first row of each distinct key
`(Titre_Simplifie, Entreprise, Ville)`: the output is a sublist of the
normalized input rows, every kept row is the first input row with its
key (so its non-key fields `Departement`, `Contrat`, `Salaire_Annuel`
are the first occurrence's), every input key is represented, and no key
appears twice — in particular two raw rows with an identical key but
different links collapse to one output row, the link being dropped by
the projection `nettoyerLigne` before deduplication. -/
theorem traitement_dedup (lignes : List Enregistrement) :
    (lancer_traitement_final lignes).Sublist (lignes.map nettoyerLigne) ∧
    (∀ r, r ∈ lancer_traitement_final lignes →
      (lignes.map nettoyerLigne).find?
        (fun x => decide (cleDedup x = cleDedup r)) = some r) ∧
    (∀ r, r ∈ lignes.map nettoyerLigne →
      ∃ r', r' ∈ lancer_traitement_final lignes ∧ cleDedup r' = cleDedup r) ∧
    ((lancer_traitement_final lignes).map cleDedup).Nodup :=
  ⟨dedoublonner_sublist [] _,
    fun r hr => (dedoublonner_premier [] _ r hr).2,
    fun r hr => dedoublonner_couvre _ r [] hr (by simp),
    dedoublonner_nodup [] _⟩

def ligneTest1 : Enregistrement :=
  ⟨"Développeur", "ACME", "Lyon", "CDI", "Non affiché", "lien-a"⟩

def ligneTest2 : Enregistrement :=
  ⟨"Développeur", "ACME", "Lyon", "CDI", "Non affiché", "lien-b"⟩

/-- Witness for C9: two rows identical up to their link. -/
theorem traitement_dedup_temoin :
    nettoyerLigne ligneTest2 ∈ [ligneTest1, ligneTest2].map nettoyerLigne ∧
      ∃ r', r' ∈ lancer_traitement_final [ligneTest1, ligneTest2] ∧
        cleDedup r' = cleDedup (nettoyerLigne ligneTest2) :=
  ⟨by decide,
    (traitement_dedup [ligneTest1, ligneTest2]).2.2.1 (nettoyerLigne ligneTest2)
      (by decide)⟩

def ligneBruit : Enregistrement :=
  ⟨"CDI H/F", "ACME", "Lyon", "CDI", "Non affiché", "lien-a"⟩

/-- C10: the non-empty raw title `"CDI H/F"` consists only of noise
tokens: `simplifier_titre` maps it to the empty string, and the
normalization pipeline keeps such a row, so a clean record's key
component `Titre_Simplifie` can be the empty string even though every
raw record's title is non-empty. -/
theorem titre_simplifie_vide :
    simplifier_titre ("CDI H/F") = ("") ∧
      ligneBruit.titre ≠ ("") ∧
      (lancer_traitement_final [ligneBruit]).map
        (fun r => r.titreSimplifie) = [("")] := by
  refine ⟨?_, ?_, ?_⟩ <;> decide

/-! ## Decimal rendering of an output value (C8)

The claim speaks of re-normalizing "the decimal string rendering" of a
present output.  Every present output is an integer number of hundredths
(`filtrerAberrants_forme`), and `renduDecimal` below is the Python
`str`/`repr` of such a float: integer part, a dot, then the fractional
digits without a trailing zero but at least one digit
(`24000.0`, `21840.5`, `14000.05`, `21840.48`). -/

/-- One decimal digit character. -/
def chiffreCar (n : Nat) : Char :=
  match n with
  | 0 => '0' | 1 => '1' | 2 => '2' | 3 => '3' | 4 => '4'
  | 5 => '5' | 6 => '6' | 7 => '7' | 8 => '8' | _ => '9'

/-- The decimal digits of `n`, least significant first; fuelled, one
unit of fuel per digit, `n` itself being more than enough fuel. -/
def chiffresInvAux : Nat → Nat → List Char
  | 0, n => [chiffreCar n]
  | fuel + 1, n =>
    if n < 10 then [chiffreCar n]
    else chiffreCar (n % 10) :: chiffresInvAux fuel (n / 10)

def chiffresInv (n : Nat) : List Char :=
  chiffresInvAux n n

/-- The decimal digits of `n`, most significant first. -/
def chiffres (n : Nat) : List Char :=
  (chiffresInv n).reverse

/-- Value of a least-significant-first digit list. -/
def valInv : List Char → Nat
  | [] => 0
  | c :: cs => (c.toNat - 48) + 10 * valInv cs

lemma chiffreCar_toNat (m : Nat) (h : m < 10) :
    (chiffreCar m).toNat = 48 + m := by
  interval_cases m <;> rfl

lemma chiffreCar_chiffre (m : Nat) (h : m < 10) :
    estChiffre (chiffreCar m) = true := by
  interval_cases m <;> decide

lemma chiffresInvAux_lt10 (fuel n : Nat) (h : n < 10) :
    chiffresInvAux fuel n = [chiffreCar n] := by
  cases fuel with
  | zero => rfl
  | succ f =>
    simp only [chiffresInvAux]
    rw [if_pos h]

lemma chiffresInvAux_carburant (n : Nat) : ∀ fuel fuel', n ≤ fuel → n ≤ fuel' →
    chiffresInvAux fuel n = chiffresInvAux fuel' n := by
  induction n using Nat.strong_induction_on with
  | _ n ih =>
    intro fuel fuel' h1 h2
    by_cases h : n < 10
    · rw [chiffresInvAux_lt10 fuel n h, chiffresInvAux_lt10 fuel' n h]
    · cases fuel with
      | zero => omega
      | succ f =>
        cases fuel' with
        | zero => omega
        | succ f' =>
          have hlt : n / 10 < n := Nat.div_lt_self (by omega) (by omega)
          simp only [chiffresInvAux, if_neg h]
          congr 1
          exact ih (n / 10) hlt f f' (by omega) (by omega)

lemma chiffresInv_lt10 (n : Nat) (h : n < 10) :
    chiffresInv n = [chiffreCar n] :=
  chiffresInvAux_lt10 n n h

lemma chiffresInv_ge10 (n : Nat) (h : ¬ n < 10) :
    chiffresInv n = chiffreCar (n % 10) :: chiffresInv (n / 10) := by
  cases n with
  | zero => omega
  | succ m =>
    show chiffresInvAux (m + 1) (m + 1) = _
    simp only [chiffresInvAux]
    rw [if_neg h]
    congr 1
    have hlt : (m + 1) / 10 < m + 1 := Nat.div_lt_self (by omega) (by omega)
    exact chiffresInvAux_carburant ((m + 1) / 10) m ((m + 1) / 10)
      (by omega) (by omega)

lemma chiffresInv_nonvide (n : Nat) : chiffresInv n ≠ [] := by
  by_cases h : n < 10
  · rw [chiffresInv_lt10 n h]
    simp
  · rw [chiffresInv_ge10 n h]
    simp

lemma chiffresInv_chiffres (n : Nat) :
    ∀ c ∈ chiffresInv n, estChiffre c = true := by
  induction n using Nat.strong_induction_on with
  | _ n ih =>
    by_cases h : n < 10
    · rw [chiffresInv_lt10 n h]
      intro c hc
      rw [List.mem_singleton.mp hc]
      exact chiffreCar_chiffre n h
    · rw [chiffresInv_ge10 n h]
      intro c hc
      rcases List.mem_cons.mp hc with hc | hc
      · rw [hc]
        exact chiffreCar_chiffre _ (Nat.mod_lt _ (by omega))
      · exact ih (n / 10) (Nat.div_lt_self (by omega) (by omega)) c hc

lemma valInv_chiffresInv (n : Nat) : valInv (chiffresInv n) = n := by
  induction n using Nat.strong_induction_on with
  | _ n ih =>
    by_cases h : n < 10
    · rw [chiffresInv_lt10 n h]
      simp only [valInv, chiffreCar_toNat n h]
      omega
    · rw [chiffresInv_ge10 n h]
      simp only [valInv, ih (n / 10) (Nat.div_lt_self (by omega) (by omega)),
        chiffreCar_toNat (n % 10) (Nat.mod_lt _ (by omega))]
      omega

lemma valChiffres_reverse (r : List Char) : valChiffres r.reverse = valInv r := by
  induction r with
  | nil => rfl
  | cons c cs ih =>
    rw [List.reverse_cons]
    unfold valChiffres at ih ⊢
    rw [List.foldl_append]
    simp only [List.foldl_cons, List.foldl_nil, valInv, ih]
    omega

lemma valChiffres_chiffres (n : Nat) : valChiffres (chiffres n) = n := by
  unfold chiffres
  rw [valChiffres_reverse, valInv_chiffresInv]

lemma chiffres_nonvide (n : Nat) : chiffres n ≠ [] := by
  unfold chiffres
  simpa using chiffresInv_nonvide n

lemma chiffres_chiffres (n : Nat) : ∀ c ∈ chiffres n, estChiffre c = true := by
  intro c hc
  exact chiffresInv_chiffres n c (List.mem_reverse.mp hc)

lemma chiffres_long_un (n : Nat) (h : n < 10) : (chiffres n).length = 1 := by
  unfold chiffres
  rw [chiffresInv_lt10 n h]
  rfl

lemma chiffres_long_deux (n : Nat) (h1 : 10 ≤ n) (h2 : n < 100) :
    (chiffres n).length = 2 := by
  unfold chiffres
  rw [chiffresInv_ge10 n (by omega), chiffresInv_lt10 (n / 10) (by omega)]
  rfl

/-- The fractional digit block of the rendering of `fr` hundredths,
`0 ≤ fr < 100`. -/
def partieFrac (fr : Nat) : List Char :=
  if fr = 0 then ['0']
  else if fr % 10 = 0 then chiffres (fr / 10)
  else if fr < 10 then '0' :: chiffres fr
  else chiffres fr

/-- Modelled from the claim's "decimal string rendering of v": the
character list of the Python float repr of a value with at most two
decimal places. -/
def renduListe (q : ℚ) : List Char :=
  let n : Nat := (⌊100 * q⌋).toNat
  chiffres (n / 100) ++ '.' :: partieFrac (n % 100)

/-- The decimal string rendering itself. -/
def renduDecimal (q : ℚ) : String :=
  String.mk (renduListe q)

lemma valChiffres_zero_cons (l : List Char) :
    valChiffres ('0' :: l) = valChiffres l := by
  unfold valChiffres
  rw [List.foldl_cons]
  have h : ('0').toNat = 48 := rfl
  rw [h]

lemma partieFrac_nonvide (fr : Nat) : partieFrac fr ≠ [] := by
  unfold partieFrac
  split_ifs with h1 h2 h3
  · simp
  · exact chiffres_nonvide _
  · simp
  · exact chiffres_nonvide _

lemma partieFrac_chiffres (fr : Nat) :
    ∀ c ∈ partieFrac fr, estChiffre c = true := by
  unfold partieFrac
  split_ifs with h1 h2 h3
  · intro c hc
    rw [List.mem_singleton.mp hc]
    decide
  · exact chiffres_chiffres _
  · intro c hc
    rcases List.mem_cons.mp hc with hc | hc
    · rw [hc]
      decide
    · exact chiffres_chiffres fr c hc
  · exact chiffres_chiffres _

lemma partieFrac_val (fr : Nat) (h : fr < 100) :
    (valChiffres (partieFrac fr) : ℚ) / 10 ^ (partieFrac fr).length =
      (fr : ℚ) / 100 := by
  unfold partieFrac
  split_ifs with h1 h2 h3
  · subst h1
    have h0 : ('0').toNat = 48 := rfl
    norm_num [valChiffres, h0]
  · rw [chiffres_long_un (fr / 10) (by omega), valChiffres_chiffres]
    rw [pow_one, div_eq_div_iff (by norm_num) (by norm_num)]
    have h5 : (fr / 10) * 100 = fr * 10 := by omega
    exact_mod_cast h5
  · rw [valChiffres_zero_cons, valChiffres_chiffres]
    have hlen : (('0' :: chiffres fr).length) = 2 := by
      rw [List.length_cons, chiffres_long_un fr h3]
    rw [hlen]
    norm_num
  · rw [chiffres_long_deux fr (by omega) h, valChiffres_chiffres]
    norm_num

/-! ## Scanning the rendered value (C8) -/

lemma scanNombres_nil (carb : Nat) : scanNombres carb [] = [] := by
  cases carb <;> rfl

lemma takeWhile_tous (p : Char → Bool) (l r : List Char)
    (hl : ∀ c ∈ l, p c = true)
    (hr : ∀ c cs, r = c :: cs → p c = false) :
    (l ++ r).takeWhile p = l ∧ (l ++ r).dropWhile p = r := by
  induction l with
  | nil =>
    cases r with
    | nil => simp
    | cons c cs =>
      have hc := hr c cs rfl
      simp [List.takeWhile_cons, List.dropWhile_cons, hc]
  | cons x xs ih =>
    have hx : p x = true := hl x (List.mem_cons_self _ _)
    have ih2 := ih (fun c hc => hl c (List.mem_cons_of_mem _ hc))
    constructor
    · rw [List.cons_append, List.takeWhile_cons, hx, if_pos rfl, ih2.1]
    · rw [List.cons_append, List.dropWhile_cons, hx, if_pos rfl, ih2.2]

lemma scanNombres_rendu (ent frac : List Char) (carb : Nat)
    (he : ent ≠ []) (hf : frac ≠ [])
    (he2 : ∀ c ∈ ent, estChiffre c = true)
    (hf2 : ∀ c ∈ frac, estChiffre c = true) :
    scanNombres (carb + 1) (ent ++ '.' :: frac) =
      [(valChiffres ent : ℚ) + (valChiffres frac : ℚ) / 10 ^ frac.length] := by
  have hpoint : ∀ c cs, ('.' :: frac) = c :: cs → estChiffre c = false := by
    intro c cs hcc
    cases hcc
    decide
  have htw := takeWhile_tous estChiffre ent ('.' :: frac) he2 hpoint
  cases ent with
  | nil => exact absurd rfl he
  | cons e es =>
    have hd : estChiffre e = true := he2 e (List.mem_cons_self _ _)
    have h1 : (e :: (es ++ '.' :: frac)).takeWhile estChiffre = e :: es := by
      rw [← List.cons_append]
      exact htw.1
    have h2 : (e :: (es ++ '.' :: frac)).dropWhile estChiffre = '.' :: frac := by
      rw [← List.cons_append]
      exact htw.2
    cases frac with
    | nil => exact absurd rfl hf
    | cons d ds =>
      have hdd : estChiffre d = true := hf2 d (List.mem_cons_self _ _)
      have htwf := takeWhile_tous estChiffre (d :: ds) [] hf2
        (fun c cs hcc => absurd hcc (by simp))
      have h3 : (d :: ds).takeWhile estChiffre = d :: ds := by
        have h5 := htwf.1
        rwa [List.append_nil] at h5
      have h4 : (d :: ds).dropWhile estChiffre = [] := by
        have h5 := htwf.2
        rwa [List.append_nil] at h5
      simp only [List.cons_append, List.append_eq, scanNombres, h1, h2, hd,
        if_true, hdd, h3, h4, scanNombres_nil]

/-! ## The rendered value survives the preliminary cleaning (C8) -/

lemma renduListe_cars (v : ℚ) (c : Char) (hc : c ∈ renduListe v) :
    c.toNat = 46 ∨ (48 ≤ c.toNat ∧ c.toNat ≤ 57) := by
  rw [renduListe] at hc
  rcases List.mem_append.mp hc with hc | hc
  · right
    exact of_decide_eq_true (chiffres_chiffres _ c hc)
  · rcases List.mem_cons.mp hc with hc | hc
    · left
      rw [hc]
      decide
    · right
      exact of_decide_eq_true (partieFrac_chiffres _ c hc)

lemma map_id_de (f : Char → Char) (l : List Char) (h : ∀ c ∈ l, f c = c) :
    l.map f = l := by
  induction l with
  | nil => rfl
  | cons c cs ih =>
    rw [List.map_cons, h c (List.mem_cons_self _ _),
      ih (fun x hx => h x (List.mem_cons_of_mem _ hx))]

lemma flatMap_id (l : List Char) (h : ∀ c ∈ l, ¬ c.toNat = 107) :
    l.flatMap (fun c => if c.toNat = 107 then ['0', '0', '0'] else [c]) = l := by
  induction l with
  | nil => rfl
  | cons c cs ih =>
    rw [List.flatMap_cons, if_neg (h c (List.mem_cons_self _ _)),
      ih (fun x hx => h x (List.mem_cons_of_mem _ hx))]
    rfl

lemma minusculeFr_id_rendu (c : Char)
    (h : c.toNat = 46 ∨ (48 ≤ c.toNat ∧ c.toNat ≤ 57)) :
    minusculeFr c = c := by
  unfold minusculeFr
  rcases h with h | h
  · rw [if_neg (by omega), if_neg (by omega), if_neg (by omega),
      if_neg (by omega)]
  · rw [if_neg (by omega), if_neg (by omega), if_neg (by omega),
      if_neg (by omega)]

lemma normaliser_id_rendu (l : List Char)
    (h : ∀ c ∈ l, c.toNat = 46 ∨ (48 ≤ c.toNat ∧ c.toNat ≤ 57)) :
    normaliserTexteSalaire l = l := by
  unfold normaliserTexteSalaire
  have hf : l.filter
      (fun c => !(c.toNat = 32 || c.toNat = 8239 || c.toNat = 160)) = l := by
    apply List.filter_eq_self.mpr
    intro c hc
    have h2 := h c hc
    simp only [Bool.not_eq_true', Bool.or_eq_false_iff, decide_eq_false_iff_not]
    rcases h2 with h2 | h2 <;> omega
  rw [hf]
  apply flatMap_id
  intro c hc
  have h2 := h c hc
  rcases h2 with h2 | h2 <;> omega

lemma valeurExtraite_rendu (v : ℚ) (z : ℤ) (hz0 : 0 ≤ z)
    (hv : v = (z : ℚ) / 100) : valeurExtraite (renduListe v) = some v := by
  have h100 : (100 : ℚ) * v = (z : ℚ) := by
    rw [hv]
    field_simp
  have hfl : ⌊(100 : ℚ) * v⌋ = z := by
    rw [h100]
    exact Int.floor_intCast z
  set n : Nat := (⌊(100 : ℚ) * v⌋).toNat with hn
  have hnz : (n : ℤ) = z := by
    rw [hn, hfl]
    exact Int.toNat_of_nonneg hz0
  have hRL : renduListe v =
      chiffres (n / 100) ++ '.' :: partieFrac (n % 100) := rfl
  have hscan := scanNombres_rendu (chiffres (n / 100)) (partieFrac (n % 100))
    ((chiffres (n / 100) ++ '.' :: partieFrac (n % 100)).length)
    (chiffres_nonvide _) (partieFrac_nonvide _)
    (chiffres_chiffres _) (partieFrac_chiffres _)
  have hval : (valChiffres (chiffres (n / 100)) : ℚ) +
      (valChiffres (partieFrac (n % 100)) : ℚ) /
        10 ^ (partieFrac (n % 100)).length = v := by
    rw [valChiffres_chiffres, partieFrac_val (n % 100) (Nat.mod_lt _ (by omega))]
    rw [hv, ← hnz]
    field_simp
    exact_mod_cast (by omega : (n / 100) * 100 + n % 100 = n)
  unfold valeurExtraite
  rw [hRL, hscan]
  rw [if_neg (by simp)]
  simp only [List.sum_cons, List.sum_nil, add_zero, List.length_cons,
    List.length_nil, Nat.cast_one, div_one]
  rw [hval]
  norm_num

/-- Every present output of `nettoyer_salaire` lies in the plausible
band and is an integer number of hundredths. -/
lemma nettoyer_salaire_forme (s : String) (v : ℚ)
    (h : nettoyer_salaire s = some v) :
    (14000 ≤ v ∧ v ≤ 200000) ∧ ∃ z : ℤ, v = (z : ℚ) / 100 := by
  simp only [nettoyer_salaire] at h
  split at h
  · exact absurd h (by simp)
  · split at h
    · exact absurd h (by simp)
    · exact filtrerAberrants_forme _ _ h

/-- C8: `nettoyer_salaire` is a pure function of its input (the source
reads no external state, so the embedding is a Lean function), and it is
idempotent under re-normalizing the decimal rendering of its own present
output: the rendered value parses back to the single numeric token `v`,
no unit keyword or masked marker can occur among its characters, `v`
lies above the `[1200, 12000]` inference band, and the bounds filter and
rounding leave it unchanged. -/
theorem nettoyer_salaire_idempotent (s : String) (v : ℚ)
    (h : nettoyer_salaire s = some v) :
    nettoyer_salaire (renduDecimal v) = some v := by
  obtain ⟨⟨hlo, hhi⟩, z, hz⟩ := nettoyer_salaire_forme s v h
  have hz100 : (z : ℚ) = 100 * v := by
    rw [hz]
    field_simp
  have hz0 : 0 ≤ z := by
    have h1 : (0 : ℚ) ≤ (z : ℚ) := by
      rw [hz100]
      linarith
    exact_mod_cast h1
  have hcars := renduListe_cars v
  have hmap : (renduListe v).map minusculeFr = renduListe v :=
    map_id_de _ _ (fun c hc => minusculeFr_id_rendu c (hcars c hc))
  have hnon : estInfixe nonAffiche (renduListe v) = false := by
    apply estInfixe_absent _ _ 'n' (by decide)
    intro hmem
    rcases hcars 'n' hmem with h1 | h1
    · exact absurd h1 (by decide)
    · exact absurd h1 (by decide)
  have hm : estInfixe (("mois").toList) (renduListe v) = false := by
    apply estInfixe_absent _ _ 'm' (by decide)
    intro hmem
    rcases hcars 'm' hmem with h1 | h1
    · exact absurd h1 (by decide)
    · exact absurd h1 (by decide)
  have hh : estInfixe (("heure").toList) (renduListe v) = false := by
    apply estInfixe_absent _ _ 'h' (by decide)
    intro hmem
    rcases hcars 'h' hmem with h1 | h1
    · exact absurd h1 (by decide)
    · exact absurd h1 (by decide)
  have hj : estInfixe (("jour").toList) (renduListe v) = false := by
    apply estInfixe_absent _ _ 'j' (by decide)
    intro hmem
    rcases hcars 'j' hmem with h1 | h1
    · exact absurd h1 (by decide)
    · exact absurd h1 (by decide)
  have hpropre : normaliserTexteSalaire (renduListe v) = renduListe v :=
    normaliser_id_rendu _ hcars
  have hval : valeurExtraite (renduListe v) = some v :=
    valeurExtraite_rendu v z hz0 hz
  have hmult : multiplicateurDe (renduListe v) v = 1 := by
    unfold multiplicateurDe
    rw [hm, if_neg (by simp), hh, if_neg (by simp), hj, if_neg (by simp)]
    rw [if_neg (by
      intro hb
      linarith [hb.2])]
  have hfiltre : filtrerAberrants (v * 1) = some v := by
    rw [mul_one]
    unfold filtrerAberrants
    rw [if_neg (by
      intro hc
      rcases hc with hc | hc
      · linarith
      · linarith)]
    congr 1
    unfold arrondir2
    rw [← hz100, arrondirDemiPair_intCast, hz]
  simp only [nettoyer_salaire, renduDecimal, toList_mk]
  rw [hmap, hnon, if_neg (by simp), hpropre, hval]
  show filtrerAberrants (v * multiplicateurDe (renduListe v) v) = some v
  rw [hmult]
  exact hfiltre

/-- Witness for C8 at the concrete input `"2000 € / mois"`. -/
theorem nettoyer_salaire_idempotent_temoin :
    nettoyer_salaire ("2000 € / mois") = some 24000 ∧
      nettoyer_salaire (renduDecimal 24000) = some 24000 :=
  ⟨by with_unfolding_all rfl,
    nettoyer_salaire_idempotent ("2000 € / mois") 24000
      (by with_unfolding_all rfl)⟩
